import Mathlib

/-!
# A verification development of `csv-to-json` (`src/main.rs`)

The program reads a CSV file, turns every data record into a map from header
name to field value, optionally aggregates statistics over the resulting
table, serializes the table to pretty-printed JSON and writes it to a file
or to standard output.

Shallow embedding choices, recorded once here:

* Rust's `HashMap<String, String>` is modelled as an association list with
  distinct keys (`hmInsert` overwrites, `hmGet` finds the unique entry).
  A `HashMap` has no observable entry order; the list order used here is
  first-insertion order, a representative.  Wherever entry order matters
  observably (JSON serialization), the development quantifies over all
  permutations of a row's entries instead of trusting the list order.
* `HashSet<String>` is modelled as `Finset String`.
* The `csv` crate is not part of this repository; its record iterator is
  modelled from the spec: the input is a header line (line 1) followed by
  one data record per physical line, each record either yielding its list
  of fields or failing the delimiter format's quoting rules.  Record `k`
  (0-based) therefore sits on physical line `k + 2`.
* File-system effects are modelled by explicit parameters: the input file
  is `Option CsvFile` (`none` = not found) and the writability of the
  output destination is a boolean.  The `FileReadError` and
  `JsonConversionError` branches of the Rust code are unreachable in this
  model (the first needs an open-time I/O fault, the second cannot happen
  for `Vec<HashMap<String, String>>`), so they never arise from
  `convert_dynamic` below, but the error type keeps all constructors.
-/

/-! ## The `HashMap` model: association lists with distinct keys -/

/-- `HashMap::get`: the value of the first (in a well-formed map, unique)
entry with the given key. -/
def hmGet {α : Type} (m : List (String × α)) (k : String) : Option α :=
  match m with
  | [] => none
  | p :: rest => if p.1 = k then some p.2 else hmGet rest k

/-- `HashMap::contains_key`. -/
def hmContains {α : Type} (m : List (String × α)) (k : String) : Bool :=
  (hmGet m k).isSome

/-- `HashMap::insert`: overwrite the entry with the given key if present,
otherwise add a new entry. -/
def hmInsert {α : Type} (m : List (String × α)) (k : String) (v : α) :
    List (String × α) :=
  if hmContains m k then m.map (fun p => if p.1 = k then (k, v) else p)
  else m ++ [(k, v)]

/-- `HashMap::get_mut` followed by an update: apply `f` to the value stored
at `k`, leave the map unchanged when `k` is absent. -/
def hmModify {α : Type} (m : List (String × α)) (k : String) (f : α → α) :
    List (String × α) :=
  m.map (fun p => if p.1 = k then (p.1, f p.2) else p)

/-- The keys of a map, in entry order. -/
def keysOf {α : Type} (m : List (String × α)) : List String :=
  m.map Prod.fst

/-- A parsed row: header name ↦ cell value. -/
abbrev Row := List (String × String)

/-! ## Row construction (`convert_dynamic`, the loop over `record.iter().enumerate()`) -/

/-- The row-construction loop of `convert_dynamic`:

    for (i, field) in record.iter().enumerate() {
        if let Some(header) = headers.get(i) {
            row_map.insert(header.to_string(), field.to_string());
        }
    }

`headers.zip fields` is exactly the sequence of `(headers[i], field)` pairs
for which `headers.get(i)` succeeds, in loop order. -/
def buildRow (headers fields : List String) : Row :=
  (headers.zip fields).foldl (fun m p => hmInsert m p.1 p.2) []

/-! ## Record parsing (`reader.records().enumerate()` with `?`) -/

/-- One data record as delivered by the (spec-modelled) csv reader:
`some fields`, or `none` when the line violates the quoting rules. -/
abbrev RecordOutcome := Option (List String)

/-- The record loop of `convert_dynamic` from enumeration index `lineNum`:
a failing record at enumeration index `i` aborts with `i + 2` (the `?`
operator), a succeeding one contributes `buildRow` and the loop goes on. -/
def parseRowsFrom (headers : List String) (lineNum : Nat) :
    List RecordOutcome → Except Nat (List Row)
  | [] => .ok []
  | none :: _ => .error (lineNum + 2)
  | some fields :: rest =>
    match parseRowsFrom headers (lineNum + 1) rest with
    | .error n => .error n
    | .ok rows => .ok (buildRow headers fields :: rows)

/-- The whole record loop, starting the enumeration at 0. -/
def parseRows (headers : List String) (records : List RecordOutcome) :
    Except Nat (List Row) :=
  parseRowsFrom headers 0 records

/-! ## Statistics (`CsvStats`, `calculate_stats`) -/

/-- The `CsvStats` struct.  `column_unique_counts` is a `HashMap`, modelled
as an association list with distinct keys. -/
structure CsvStats where
  total_rows : Nat
  total_columns : Nat
  empty_cells : Nat
  column_unique_counts : List (String × Nat)

/-- The body of the cell loop of `calculate_stats`: bump `empty_cells` when
the trimmed value is empty, and insert the raw value into the column's
distinct-value set when that column has one (`get_mut` guard). -/
def statsStep (st : Nat × List (String × Finset String)) (cell : String × String) :
    Nat × List (String × Finset String) :=
  (if cell.2.trim = "" then st.1 + 1 else st.1,
   hmModify st.2 cell.1 (fun s => insert cell.2 s))

/-- The initialization loop of `calculate_stats`: one empty distinct-value
set per header name. -/
def initUV (headers : List String) : List (String × Finset String) :=
  headers.foldl (fun m h => hmInsert m h (∅ : Finset String)) []

/-- The two nested loops of `calculate_stats`: scan every cell of every
row, starting from `empty_cells = 0` and the per-header empty sets. -/
def statsPass (data : List Row) (headers : List String) :
    Nat × List (String × Finset String) :=
  data.foldl (fun st row => row.foldl statsStep st) (0, initUV headers)

/-- `calculate_stats`. -/
def calculate_stats (data : List Row) (headers : List String) : CsvStats :=
  let res := statsPass data headers
  { total_rows := data.length
    total_columns := headers.length
    empty_cells := res.1
    column_unique_counts := res.2.map (fun p => (p.1, p.2.card)) }

/-! ## Specification-side counting helpers (used to state theorems) -/

/-- The values of the cells of `row` that carry key `k`. -/
def rowColVals (row : Row) (k : String) : List String :=
  (row.filter (fun c => c.1 = k)).map Prod.snd

/-- The values of all cells of the table that carry key `k`, row by row. -/
def colVals (data : List Row) (k : String) : List String :=
  (data.map (fun row => rowColVals row k)).flatten

/-- The number of cells of `row` whose trimmed value is empty. -/
def rowEmpties (row : Row) : Nat :=
  (row.filter (fun c => c.2.trim = "")).length

/-! ## JSON serialization (`serde_json::to_string_pretty` on `Vec<HashMap<String, String>>`)

`serde_json` writes each map's entries in the map's iteration order, which
for `HashMap` is unspecified and varies between process runs.  The
renderers below take the entry list as given; the development quantifies
over permutations of each row wherever the unspecified order matters. -/

/-- The opening brace character, `U+007B`. -/
def lbrace : Char := Char.ofNat 123

/-- The closing brace character, `U+007D`. -/
def rbrace : Char := Char.ofNat 125

/-- One hexadecimal digit, lowercase, as `serde_json` prints them. -/
def hexDigit (n : Nat) : Char :=
  if n < 10 then Char.ofNat (48 + n) else Char.ofNat (87 + n)

/-- `serde_json`'s string escaping: the quote, the backslash, the short
escapes for the five named control characters, `\u00XX` for the remaining
control characters, and every other character unchanged. -/
def escapeChar (c : Char) : List Char :=
  if c = '\"' then ['\\', '\"']
  else if c = '\\' then ['\\', '\\']
  else if c = Char.ofNat 8 then ['\\', 'b']
  else if c = Char.ofNat 12 then ['\\', 'f']
  else if c = '\n' then ['\\', 'n']
  else if c = Char.ofNat 13 then ['\\', 'r']
  else if c = '\t' then ['\\', 't']
  else if c.toNat < 32 then
    ['\\', 'u', '0', '0', hexDigit (c.toNat / 16), hexDigit (c.toNat % 16)]
  else [c]

/-- A JSON string literal: quote, escaped characters, quote. -/
def renderStringChars (s : String) : List Char :=
  '\"' :: (s.data.flatMap escapeChar ++ ['\"'])

/-- Concatenation with a separator between consecutive pieces. -/
def sepConcat (sep : List Char) : List (List Char) → List Char
  | [] => []
  | [x] => x
  | x :: y :: rest => x ++ sep ++ sepConcat sep (y :: rest)

/-- One object member at the pretty-printer's depth 2: four spaces of
indentation, the key, `: `, the value. -/
def renderFieldChars (kv : String × String) : List Char :=
  ' ' :: ' ' :: ' ' :: ' ' :: (renderStringChars kv.1 ++ ':' :: ' ' :: renderStringChars kv.2)

/-- One row as a pretty-printed object at depth 1.  An empty map prints as
`{}`; otherwise every member sits on its own line and the closing brace is
indented two spaces. -/
def renderObjChars (row : Row) : List Char :=
  match row with
  | [] => [lbrace, rbrace]
  | _ =>
    lbrace :: '\n' ::
      (sepConcat [',', '\n'] (row.map renderFieldChars) ++ '\n' :: ' ' :: ' ' :: [rbrace])

/-- One array element line: two spaces of indentation, then the object. -/
def renderRowChars (row : Row) : List Char :=
  ' ' :: ' ' :: renderObjChars row

/-- The whole document: `[]` for an empty table, otherwise one object per
row, separated by `,\n`, between `[\n` and `\n]`. -/
def renderDocChars (rows : List Row) : List Char :=
  match rows with
  | [] => ['[', ']']
  | _ => '[' :: '\n' :: (sepConcat [',', '\n'] (rows.map renderRowChars) ++ '\n' :: [']'])

/-- The document text, the model of `serde_json::to_string_pretty(&all_rows)`
for one choice of entry order per row. -/
def renderDoc (rows : List Row) : String :=
  String.mk (renderDocChars rows)

/-! ## JSON re-parsing (the model of `serde_json::from_str::<Vec<HashMap<String,String>>>`)

A whitespace-tolerant recursive-descent parser for the fragment the
serializer emits: an array of objects whose values are strings.  Loops
over members and over array elements run on fuel; the top entry point
hands them one unit of fuel per input character plus one, which the
round-trip theorem shows is enough. -/

/-- JSON insignificant whitespace. -/
def isWsChar (c : Char) : Bool :=
  c = ' ' ∨ c = '\n' ∨ c = Char.ofNat 13 ∨ c = '\t'

/-- Drop leading insignificant whitespace. -/
def skipWs : List Char → List Char
  | [] => []
  | c :: rest => if isWsChar c then skipWs rest else c :: rest

/-- The value of one hexadecimal digit, upper or lower case. -/
def hexVal (c : Char) : Option Nat :=
  if 48 ≤ c.toNat ∧ c.toNat ≤ 57 then some (c.toNat - 48)
  else if 97 ≤ c.toNat ∧ c.toNat ≤ 102 then some (c.toNat - 87)
  else if 65 ≤ c.toNat ∧ c.toNat ≤ 70 then some (c.toNat - 55)
  else none

/-- The character named by a short escape. -/
def unescape1 (e : Char) : Option Char :=
  if e = '\"' then some '\"'
  else if e = '\\' then some '\\'
  else if e = '/' then some '/'
  else if e = 'b' then some (Char.ofNat 8)
  else if e = 'f' then some (Char.ofNat 12)
  else if e = 'n' then some '\n'
  else if e = 'r' then some (Char.ofNat 13)
  else if e = 't' then some '\t'
  else none

/-- Parse the body of a string literal, the opening quote already consumed:
return the decoded characters and the input after the closing quote. -/
def parseStringBody : List Char → Option (List Char × List Char)
  | [] => none
  | c :: rest =>
    if c = '\"' then some ([], rest)
    else if c = '\\' then
      match rest with
      | [] => none
      | e :: rest2 =>
        if e = 'u' then
          match rest2 with
          | h1 :: h2 :: h3 :: h4 :: rest3 =>
            match hexVal h1, hexVal h2, hexVal h3, hexVal h4 with
            | some a, some b, some c2, some d =>
              (parseStringBody rest3).map
                (fun p => (Char.ofNat (((a * 16 + b) * 16 + c2) * 16 + d) :: p.1, p.2))
            | _, _, _, _ => none
          | _ => none
        else
          match unescape1 e with
          | none => none
          | some c2 => (parseStringBody rest2).map (fun p => (c2 :: p.1, p.2))
    else (parseStringBody rest).map (fun p => (c :: p.1, p.2))
termination_by l => l.length
decreasing_by
  all_goals simp_all
  all_goals omega

/-- Parse the members of an object, positioned after the opening brace (or
after the comma following a member), the object known to be nonempty:
`ws "key" ws : ws "value" ws` then a comma and more members or the closing
brace.  One unit of fuel per member. -/
def parseObjFields (fuel : Nat) (input : List Char) :
    Option (List (String × String) × List Char) :=
  match fuel with
  | 0 => none
  | fuel + 1 =>
    match skipWs input with
    | [] => none
    | c :: rest =>
      if c = '\"' then
        match parseStringBody rest with
        | none => none
        | some (k, rest1) =>
          match skipWs rest1 with
          | [] => none
          | c1 :: rest2 =>
            if c1 = ':' then
              match skipWs rest2 with
              | [] => none
              | c2 :: rest3 =>
                if c2 = '\"' then
                  match parseStringBody rest3 with
                  | none => none
                  | some (v, rest4) =>
                    match skipWs rest4 with
                    | [] => none
                    | c3 :: rest5 =>
                      if c3 = ',' then
                        match parseObjFields fuel rest5 with
                        | none => none
                        | some (fields, rest6) =>
                          some ((String.mk k, String.mk v) :: fields, rest6)
                      else if c3 = rbrace then
                        some ([(String.mk k, String.mk v)], rest5)
                      else none
                else none
            else none
      else none

/-- Parse one object: `ws {`, then `}` for the empty object or the member
loop. -/
def parseObject (fuel : Nat) (input : List Char) : Option (Row × List Char) :=
  match skipWs input with
  | [] => none
  | c :: rest =>
    if c = lbrace then
      match skipWs rest with
      | [] => none
      | c1 :: rest1 =>
        if c1 = rbrace then some ([], rest1)
        else parseObjFields fuel (c1 :: rest1)
    else none

/-- Parse the elements of a nonempty array of objects: an object, then a
comma and more elements or the closing bracket.  One unit of fuel per
element. -/
def parseArrayItems (fuel : Nat) (input : List Char) :
    Option (List Row × List Char) :=
  match fuel with
  | 0 => none
  | fuel + 1 =>
    match parseObject fuel input with
    | none => none
    | some (row, rest) =>
      match skipWs rest with
      | [] => none
      | c :: rest1 =>
        if c = ',' then
          match parseArrayItems fuel rest1 with
          | none => none
          | some (rows, rest2) => some (row :: rows, rest2)
        else if c = ']' then some ([row], rest1)
        else none

/-- Parse a whole document: `ws [`, then `]` for the empty array or the
element loop, then only whitespace to the end of the input. -/
def parseDoc (s : String) : Option (List Row) :=
  match skipWs s.data with
  | [] => none
  | c :: rest =>
    if c = '[' then
      match skipWs rest with
      | [] => none
      | c1 :: rest1 =>
        if c1 = ']' then if skipWs rest1 = [] then some [] else none
        else
          match parseArrayItems (s.data.length + 1) rest with
          | none => none
          | some (rows, rest2) => if skipWs rest2 = [] then some rows else none
    else none

/-! ## The conversion pipeline (`convert_dynamic`) -/

/-- The error type of the program, `ConversionError`. -/
inductive ConversionError where
  | FileNotFound (path : String)
  | FileReadError (path : String)
  | CsvParseError
  | CsvRecordError (line : Nat)
  | JsonConversionError
  | FileWriteError (path : String)
deriving DecidableEq

/-- The input file as the (spec-modelled) csv reader sees it: the header
line (`none` when it cannot be parsed) and one record outcome per data
line. -/
structure CsvFile where
  header : Option (List String)
  records : List RecordOutcome

/-- What one run leaves behind: the in-memory document once constructed,
the content written to the output file if any, and the result. -/
structure RunOutcome where
  doc : Option String
  written : Option String
  result : Except ConversionError Unit

/-- `convert_dynamic`: open the input, read the header, run the record
loop, serialize, then write to the output path (or print to stdout when
there is none).  `writable` models whether the destination accepts the
write.  The statistics pass only prints, so it does not appear in the
outcome; `calculate_stats` is verified separately. -/
def convert_dynamic (input_path : String) (file : Option CsvFile)
    (output_path : Option String) (writable : Bool) : RunOutcome :=
  match file with
  | none => ⟨none, none, .error (.FileNotFound input_path)⟩
  | some f =>
    match f.header with
    | none => ⟨none, none, .error .CsvParseError⟩
    | some headers =>
      match parseRows headers f.records with
      | .error n => ⟨none, none, .error (.CsvRecordError n)⟩
      | .ok rows =>
        let json := renderDoc rows
        match output_path with
        | some path =>
          if writable then ⟨some json, some json, .ok ()⟩
          else ⟨some json, none, .error (.FileWriteError path)⟩
        | none => ⟨some json, none, .ok ()⟩

/-- The unspecified `HashMap` iteration order: a document rendering of the
table is any choice, row by row, of a permutation of the row's entries. -/
def Rendering (data ords : List Row) : Prop :=
  List.Forall₂ (fun row obj => List.Perm obj row) data ords

/-! ## Lemmas about the `HashMap` model -/

theorem hmGet_map_overwrite_ne {α : Type} (m : List (String × α)) (a k : String) (v : α)
    (hak : a ≠ k) :
    hmGet (m.map (fun p => if p.1 = a then (a, v) else p)) k = hmGet m k := by
  induction m with
  | nil => rfl
  | cons p rest ih =>
    by_cases hpa : p.1 = a
    · simp [hmGet, hpa, hak, Ne.symm hak, ih]
    · simp only [List.map_cons, if_neg hpa, hmGet, ih]

theorem hmInsert_cons_ne {α : Type} (p : String × α) (rest : List (String × α))
    (a : String) (v : α) (hpa : p.1 ≠ a) :
    hmInsert (p :: rest) a v = p :: hmInsert rest a v := by
  simp only [hmInsert, hmContains, hmGet, if_neg hpa]
  split
  · simp [hpa]
  · simp

theorem hmGet_hmInsert {α : Type} (m : List (String × α)) (a k : String) (v : α) :
    hmGet (hmInsert m a v) k = if a = k then some v else hmGet m k := by
  induction m with
  | nil => simp [hmInsert, hmContains, hmGet]
  | cons p rest ih =>
    by_cases hpa : p.1 = a
    · have hcont : hmContains (p :: rest) a = true := by
        simp [hmContains, hmGet, hpa]
      simp only [hmInsert, hcont, if_true, List.map_cons, if_pos hpa]
      by_cases hak : a = k
      · simp [hmGet, hak]
      · simp [hmGet, hak, hmGet_map_overwrite_ne rest a k v hak, hpa]
    · rw [hmInsert_cons_ne p rest a v hpa]
      by_cases hpk : p.1 = k
      · have hak : a ≠ k := fun h => hpa (hpk.trans h.symm)
        simp [hmGet, hpk, hak]
      · simp [hmGet, hpk, ih]

theorem hmGet_hmModify_ne {α : Type} (m : List (String × α)) (a k : String) (f : α → α)
    (hak : a ≠ k) : hmGet (hmModify m a f) k = hmGet m k := by
  induction m with
  | nil => rfl
  | cons p rest ih =>
    by_cases hpa : p.1 = a
    · have hpk : ¬ p.1 = k := fun h => hak (hpa ▸ h)
      simp only [hmModify] at ih
      simp [hmModify, hmGet, hpa, hpk, hak, ih]
    · simp only [hmModify] at ih
      simp [hmModify, hmGet, hpa, ih]

theorem hmGet_hmModify_eq {α : Type} (m : List (String × α)) (k : String) (f : α → α) :
    hmGet (hmModify m k f) k = (hmGet m k).map f := by
  induction m with
  | nil => rfl
  | cons p rest ih =>
    by_cases hpk : p.1 = k
    · simp [hmModify, hmGet, hpk]
    · simp only [hmModify] at ih
      simp [hmModify, hmGet, hpk, ih]

theorem hmGet_hmModify {α : Type} (m : List (String × α)) (a k : String) (f : α → α) :
    hmGet (hmModify m a f) k = if a = k then (hmGet m k).map f else hmGet m k := by
  by_cases hak : a = k
  · subst hak
    simp [hmGet_hmModify_eq]
  · simp [hmGet_hmModify_ne m a k f hak, hak]

theorem keysOf_hmModify {α : Type} (m : List (String × α)) (a : String) (f : α → α) :
    keysOf (hmModify m a f) = keysOf m := by
  simp only [keysOf, hmModify, List.map_map]
  refine List.map_congr_left (fun p _ => ?_)
  by_cases hpa : p.1 = a <;> simp [hpa]

theorem hmGet_eq_none_iff {α : Type} (m : List (String × α)) (k : String) :
    hmGet m k = none ↔ k ∉ keysOf m := by
  induction m with
  | nil => simp [hmGet, keysOf]
  | cons p rest ih =>
    by_cases hpk : p.1 = k
    · subst hpk
      simp [hmGet, keysOf]
    · simp [hmGet, keysOf, hpk, ih, Ne.symm hpk]

theorem hmGet_isSome_iff {α : Type} (m : List (String × α)) (k : String) :
    (hmGet m k).isSome = true ↔ k ∈ keysOf m := by
  induction m with
  | nil => simp [hmGet, keysOf]
  | cons p rest ih =>
    by_cases hpk : p.1 = k
    · subst hpk
      simp [hmGet, keysOf]
    · simp [hmGet, keysOf, hpk, ih, Ne.symm hpk]

theorem keysOf_hmInsert {α : Type} (m : List (String × α)) (a : String) (v : α) :
    keysOf (hmInsert m a v) = if hmContains m a then keysOf m else keysOf m ++ [a] := by
  by_cases hc : hmContains m a
  · simp only [hmInsert, hc, if_true, keysOf, List.map_map]
    refine List.map_congr_left (fun p _ => ?_)
    by_cases hpa : p.1 = a <;> simp [hpa]
  · simp [hmInsert, hc, keysOf]

theorem mem_keysOf_hmInsert {α : Type} (m : List (String × α)) (a k : String) (v : α) :
    k ∈ keysOf (hmInsert m a v) ↔ k ∈ keysOf m ∨ k = a := by
  rw [keysOf_hmInsert]
  by_cases hc : hmContains m a
  · have ha : a ∈ keysOf m := (hmGet_isSome_iff m a).1 (by simpa [hmContains] using hc)
    simp only [hc, if_true]
    constructor
    · exact Or.inl
    · rintro (h | rfl)
      · exact h
      · exact ha
  · simp [hc]

theorem nodup_keysOf_hmInsert {α : Type} (m : List (String × α)) (a : String) (v : α)
    (h : (keysOf m).Nodup) : (keysOf (hmInsert m a v)).Nodup := by
  rw [keysOf_hmInsert]
  by_cases hc : hmContains m a
  · simpa [hc] using h
  · have ha : a ∉ keysOf m := by
      intro hmem
      exact hc (by simpa [hmContains] using (hmGet_isSome_iff m a).2 hmem)
    simp [hc, List.nodup_append, h, ha]

/-! ## Lemmas about the statistics pass -/

theorem foldl_statsStep_fst (row : Row) :
    ∀ st : Nat × List (String × Finset String),
      (row.foldl statsStep st).1 = st.1 + rowEmpties row := by
  induction row with
  | nil => intro st; simp [rowEmpties]
  | cons c rest ih =>
    intro st
    by_cases hc : c.2.trim = ""
    · simp [statsStep, hc, ih, rowEmpties, List.filter_cons]
      omega
    · simp [statsStep, hc, ih, rowEmpties, List.filter_cons]

theorem statsPass_fst (data : List Row) :
    ∀ st : Nat × List (String × Finset String),
      (data.foldl (fun st row => row.foldl statsStep st) st).1 =
        st.1 + (data.map rowEmpties).sum := by
  induction data with
  | nil => intro st; simp
  | cons row rest ih =>
    intro st
    simp [ih, foldl_statsStep_fst row st]
    omega

theorem foldl_statsStep_keys (row : Row) :
    ∀ st : Nat × List (String × Finset String),
      keysOf (row.foldl statsStep st).2 = keysOf st.2 := by
  induction row with
  | nil => intro st; rfl
  | cons c rest ih =>
    intro st
    rw [List.foldl_cons, ih]
    simp [statsStep, keysOf_hmModify]

theorem foldl_statsStep_get (row : Row) :
    ∀ (st : Nat × List (String × Finset String)) (k : String),
      hmGet (row.foldl statsStep st).2 k =
        (hmGet st.2 k).map (fun s => s ∪ (rowColVals row k).toFinset) := by
  induction row with
  | nil =>
    intro st k
    cases h : hmGet st.2 k <;> simp [rowColVals, h]
  | cons c rest ih =>
    intro st k
    rw [List.foldl_cons, ih]
    by_cases hck : c.1 = k
    · subst hck
      simp only [statsStep, hmGet_hmModify_eq]
      cases h : hmGet st.2 c.1 with
      | none => simp
      | some s =>
        simp only [Option.map_some, Option.map_map]
        congr 1
        funext t
        simp only [Function.comp]
        ext a
        simp [rowColVals, List.filter_cons]
    · simp only [statsStep, hmGet_hmModify_ne _ _ _ _ hck]
      congr 1
      funext t
      ext a
      simp [rowColVals, List.filter_cons, hck]

theorem statsPass_keys (data : List Row) :
    ∀ st : Nat × List (String × Finset String),
      keysOf (data.foldl (fun st row => row.foldl statsStep st) st).2 = keysOf st.2 := by
  induction data with
  | nil => intro st; rfl
  | cons row rest ih =>
    intro st
    rw [List.foldl_cons, ih, foldl_statsStep_keys]

theorem statsPass_get (data : List Row) :
    ∀ (st : Nat × List (String × Finset String)) (k : String),
      hmGet (data.foldl (fun st row => row.foldl statsStep st) st).2 k =
        (hmGet st.2 k).map (fun s => s ∪ (colVals data k).toFinset) := by
  induction data with
  | nil =>
    intro st k
    cases h : hmGet st.2 k <;> simp [colVals, h]
  | cons row rest ih =>
    intro st k
    rw [List.foldl_cons, ih, foldl_statsStep_get]
    cases h : hmGet st.2 k with
    | none => simp
    | some s =>
      simp only [Option.map_some']
      congr 1
      ext a
      simp [colVals]

theorem initUV_get (headers : List String) (k : String) :
    hmGet (initUV headers) k = if k ∈ headers then some (∅ : Finset String) else none := by
  have main : ∀ (hs : List String) (acc : List (String × Finset String)),
      hmGet (hs.foldl (fun m h => hmInsert m h (∅ : Finset String)) acc) k =
        if k ∈ hs then some (∅ : Finset String) else hmGet acc k := by
    intro hs
    induction hs with
    | nil => intro acc; simp
    | cons h rest ih =>
      intro acc
      rw [List.foldl_cons, ih]
      by_cases hk : k ∈ rest
      · simp [hk]
      · by_cases hhk : h = k
        · simp [hk, hmGet_hmInsert, hhk]
        · simp [hk, hmGet_hmInsert, hhk, Ne.symm hhk]
  have := main headers []
  simpa [hmGet] using this

theorem initUV_keys_nodup (headers : List String) : (keysOf (initUV headers)).Nodup := by
  have main : ∀ (hs : List String) (acc : List (String × Finset String)),
      (keysOf acc).Nodup →
      (keysOf (hs.foldl (fun m h => hmInsert m h (∅ : Finset String)) acc)).Nodup := by
    intro hs
    induction hs with
    | nil => intro acc h; exact h
    | cons h rest ih =>
      intro acc hacc
      rw [List.foldl_cons]
      exact ih _ (nodup_keysOf_hmInsert _ _ _ hacc)
  exact main headers [] (by simp [keysOf])

theorem mem_initUV_keys (headers : List String) (k : String) :
    k ∈ keysOf (initUV headers) ↔ k ∈ headers := by
  constructor
  · intro h
    have := (hmGet_isSome_iff (initUV headers) k).2 h
    rw [initUV_get] at this
    by_contra hmem
    simp [hmem] at this
  · intro h
    refine (hmGet_isSome_iff (initUV headers) k).1 ?_
    rw [initUV_get]
    simp [h]

theorem mem_colVals (data : List Row) (k v : String) :
    v ∈ colVals data k ↔ ∃ row ∈ data, (k, v) ∈ row := by
  simp only [colVals, List.mem_flatten, List.mem_map]
  constructor
  · rintro ⟨l, ⟨row, hrow, rfl⟩, hv⟩
    refine ⟨row, hrow, ?_⟩
    simp only [rowColVals, List.mem_map, List.mem_filter, decide_eq_true_eq] at hv
    obtain ⟨c, ⟨hc, hck⟩, hcv⟩ := hv
    have : c = (k, v) := Prod.ext hck hcv
    exact this ▸ hc
  · rintro ⟨row, hrow, hv⟩
    refine ⟨rowColVals row k, ⟨row, hrow, rfl⟩, ?_⟩
    simp only [rowColVals, List.mem_map, List.mem_filter, decide_eq_true_eq]
    exact ⟨(k, v), ⟨hv, rfl⟩, rfl⟩

theorem rowColVals_length_le_one (row : Row) (k : String)
    (h : (keysOf row).Nodup) : (rowColVals row k).length ≤ 1 := by
  induction row with
  | nil => simp [rowColVals]
  | cons c rest ih =>
    simp only [keysOf, List.map_cons, List.nodup_cons] at h
    obtain ⟨hnot, hrest⟩ := h
    by_cases hck : c.1 = k
    · subst hck
      have hfil : rest.filter (fun c2 => decide (c2.1 = c.1)) = [] := by
        rw [List.filter_eq_nil_iff]
        intro a ha
        simp only [decide_eq_true_eq]
        intro heq
        exact hnot (heq ▸ List.mem_map_of_mem Prod.fst ha)
      simp [rowColVals, List.filter_cons, hfil]
    · simpa [rowColVals, List.filter_cons, hck] using ih hrest

theorem colVals_length_le (data : List Row) (k : String)
    (h : ∀ row ∈ data, (keysOf row).Nodup) :
    (colVals data k).length ≤ data.length := by
  induction data with
  | nil => simp [colVals]
  | cons row rest ih =>
    have h1 : (rowColVals row k).length ≤ 1 :=
      rowColVals_length_le_one row k (h row (List.mem_cons_self row rest))
    have h2 := ih (fun r hr => h r (List.mem_cons_of_mem row hr))
    simp only [colVals, List.map_cons, List.flatten_cons, List.length_append,
      List.length_cons] at *
    omega

theorem colVals_eq_nil_iff (data : List Row) (k : String) :
    colVals data k = [] ↔ ∀ row ∈ data, ∀ v, (k, v) ∉ row := by
  rw [List.eq_nil_iff_forall_not_mem]
  constructor
  · intro h row hrow v hv
    exact h v ((mem_colVals data k v).2 ⟨row, hrow, hv⟩)
  · intro h v hv
    obtain ⟨row, hrow, hmem⟩ := (mem_colVals data k v).1 hv
    exact h row hrow v hmem

/-! ## Lemmas about row construction -/

theorem hmGet_append {α : Type} (l1 l2 : List (String × α)) (k : String) :
    hmGet (l1 ++ l2) k = (hmGet l1 k).or (hmGet l2 k) := by
  induction l1 with
  | nil => simp [hmGet]
  | cons p rest ih =>
    by_cases hpk : p.1 = k
    · simp [hmGet, hpk, Option.or_some]
    · simp [hmGet, hpk, ih]

theorem foldl_hmInsert_get (pairs : List (String × String)) :
    ∀ (acc : List (String × String)) (k : String),
      hmGet (pairs.foldl (fun m p => hmInsert m p.1 p.2) acc) k =
        (hmGet pairs.reverse k).or (hmGet acc k) := by
  induction pairs with
  | nil => intro acc k; simp [hmGet]
  | cons p rest ih =>
    intro acc k
    rw [List.foldl_cons, ih, List.reverse_cons, hmGet_append, Option.or_assoc]
    congr 1
    rw [hmGet_hmInsert]
    by_cases hpk : p.1 = k <;> simp [hmGet, hpk]

theorem buildRow_get (headers fields : List String) (k : String) :
    hmGet (buildRow headers fields) k = hmGet (headers.zip fields).reverse k := by
  rw [buildRow, foldl_hmInsert_get]
  cases h : hmGet (headers.zip fields).reverse k <;> simp [hmGet, h]

theorem keysOf_zip (headers fields : List String) :
    keysOf (headers.zip fields) = headers.take fields.length := by
  induction headers generalizing fields with
  | nil => simp [keysOf]
  | cons h rest ih =>
    cases fields with
    | nil => simp [keysOf]
    | cons f frest => simp [keysOf, List.zip_cons_cons, List.take_cons] at ih ⊢; exact ih frest

theorem foldl_hmInsert_keys_mem (pairs : List (String × String)) :
    ∀ (acc : List (String × String)) (k : String),
      k ∈ keysOf (pairs.foldl (fun m p => hmInsert m p.1 p.2) acc) ↔
        k ∈ keysOf acc ∨ k ∈ keysOf pairs := by
  induction pairs with
  | nil => intro acc k; simp [keysOf]
  | cons p rest ih =>
    intro acc k
    rw [List.foldl_cons, ih, mem_keysOf_hmInsert]
    simp [keysOf]
    tauto

theorem mem_keysOf_buildRow (headers fields : List String) (k : String) :
    k ∈ keysOf (buildRow headers fields) ↔ k ∈ headers.take fields.length := by
  rw [buildRow, foldl_hmInsert_keys_mem, keysOf_zip]
  simp [keysOf]

theorem foldl_hmInsert_keys_nodup (pairs : List (String × String)) :
    ∀ (acc : List (String × String)),
      (keysOf acc).Nodup →
      (keysOf (pairs.foldl (fun m p => hmInsert m p.1 p.2) acc)).Nodup := by
  induction pairs with
  | nil => intro acc h; exact h
  | cons p rest ih =>
    intro acc hacc
    rw [List.foldl_cons]
    exact ih _ (nodup_keysOf_hmInsert _ _ _ hacc)

theorem buildRow_keys_nodup (headers fields : List String) :
    (keysOf (buildRow headers fields)).Nodup :=
  foldl_hmInsert_keys_nodup _ [] (by simp [keysOf])

theorem hmGet_reverse_of_nodup {α : Type} (l : List (String × α)) (k : String)
    (h : (keysOf l).Nodup) : hmGet l.reverse k = hmGet l k := by
  induction l with
  | nil => rfl
  | cons p rest ih =>
    simp only [keysOf, List.map_cons, List.nodup_cons] at h
    obtain ⟨hnot, hrest⟩ := h
    rw [List.reverse_cons, hmGet_append, ih hrest]
    by_cases hpk : p.1 = k
    · have hkr : hmGet rest k = none := by
        rw [hmGet_eq_none_iff]
        intro hm
        exact hnot (hpk ▸ hm)
      simp [hmGet, hpk, hkr]
    · simp [hmGet, hpk]

theorem hmGet_zip_pos (headers : List String) :
    ∀ (fields : List String) (i : Nat) (hi : i < headers.length)
      (hif : i < fields.length), headers.Nodup →
      hmGet (headers.zip fields) headers[i] = some fields[i] := by
  induction headers with
  | nil => intro fields i hi; simp at hi
  | cons a rest ih =>
    intro fields i hi hif hnd
    cases fields with
    | nil => simp at hif
    | cons b frest =>
      simp only [List.nodup_cons] at hnd
      obtain ⟨hna, hrest⟩ := hnd
      cases i with
      | zero => simp [hmGet]
      | succ i =>
        have hi' : i < rest.length := by simpa using hi
        have hif' : i < frest.length := by simpa using hif
        have hne : a ≠ rest[i] := fun h => hna (h ▸ List.getElem_mem hi')
        simp only [List.zip_cons_cons, List.getElem_cons_succ, hmGet]
        rw [if_neg (by exact hne)]
        exact ih frest i hi' hif' hrest

theorem getElem_not_mem_take (l : List String) (n i : Nat) (hnd : l.Nodup)
    (hi : i < l.length) (hni : n ≤ i) : l[i] ∉ l.take n := by
  intro hmem
  obtain ⟨j, hj, hji⟩ := List.mem_iff_getElem.1 hmem
  have hjlen : j < l.length := lt_of_lt_of_le (lt_of_lt_of_le hj (by simp)) (le_refl _)
  have hjn : j < n := lt_of_lt_of_le hj (by simp [List.length_take])
  have : l.take n = l.take n := rfl
  have hgj : (l.take n)[j] = l[j] := List.getElem_take l
  rw [hgj] at hji
  have := hnd.getElem_inj_iff.1 hji
  omega

theorem hmGet_reverse_last_match (l : List (String × String)) (k : String) :
    ∀ (i : Nat) (hi : i < l.length), (l[i]).1 = k →
      (∀ (j : Nat) (hj : j < l.length), (l[j]).1 = k → j ≤ i) →
      hmGet l.reverse k = some (l[i]).2 := by
  induction l using List.reverseRecOn with
  | nil => intro i hi; simp at hi
  | append_singleton rest a ih =>
    intro i hi hk hmax
    have hlen : (rest ++ [a]).length = rest.length + 1 := by simp
    rw [List.reverse_append, List.reverse_singleton, List.singleton_append]
    by_cases hak : a.1 = k
    · have hlast : rest.length ≤ i := by
        refine hmax rest.length (by simp) ?_
        rw [List.getElem_append_right (le_refl _)]
        simpa using hak
      have hi' : i = rest.length := by omega
      subst hi'
      have hga : (rest ++ [a])[rest.length] = a := by
        rw [List.getElem_append_right (le_refl _)]
        simp
      rw [hga]
      simp [hmGet, hak]
    · have hine : i ≠ rest.length := by
        intro h
        subst h
        have hga : (rest ++ [a])[rest.length] = a := by
          rw [List.getElem_append_right (le_refl _)]
          simp
        rw [hga] at hk
        exact hak hk
      have hi' : i < rest.length := by omega
      have hgi : (rest ++ [a])[i] = rest[i] := List.getElem_append_left hi'
      rw [hgi] at hk ⊢
      have hmax' : ∀ (j : Nat) (hj : j < rest.length), (rest[j]).1 = k → j ≤ i := by
        intro j hj hjk
        have hj2 : j < (rest ++ [a]).length := by simp; omega
        have hgj : (rest ++ [a])[j] = rest[j] := List.getElem_append_left hj
        exact hmax j hj2 (by rw [hgj]; exact hjk)
      rw [hmGet, if_neg hak]
      exact ih i hi' hk hmax'

/-! ## Lemmas about the record loop -/

theorem parseRowsFrom_ok_length (headers : List String) :
    ∀ (records : List RecordOutcome) (n : Nat) (data : List Row),
      parseRowsFrom headers n records = .ok data → data.length = records.length := by
  intro records
  induction records with
  | nil =>
    intro n data h
    simp only [parseRowsFrom] at h
    cases h
    rfl
  | cons r rest ih =>
    intro n data h
    cases r with
    | none => simp [parseRowsFrom] at h
    | some fields =>
      simp only [parseRowsFrom] at h
      cases hrec : parseRowsFrom headers (n + 1) rest with
      | error m => rw [hrec] at h; cases h
      | ok rows =>
        rw [hrec] at h
        cases h
        simpa using ih (n + 1) rows hrec

theorem parseRowsFrom_first_error (headers : List String) :
    ∀ (records : List RecordOutcome) (k n : Nat),
      records[k]? = some none →
      (∀ j, j < k → records[j]? ≠ some none) →
      parseRowsFrom headers n records = .error (n + k + 2) := by
  intro records
  induction records with
  | nil => intro k n hk; simp at hk
  | cons r rest ih =>
    intro k n hk hfirst
    cases k with
    | zero =>
      simp only [List.getElem?_cons_zero, Option.some.injEq] at hk
      subst hk
      simp [parseRowsFrom]
    | succ k =>
      have hr : r ≠ none := by
        intro h
        exact hfirst 0 (Nat.succ_pos k) (by simp [h])
      cases r with
      | none => exact absurd rfl hr
      | some fields =>
        simp only [List.getElem?_cons_succ] at hk
        have hfirst' : ∀ j, j < k → rest[j]? ≠ some none := by
          intro j hj
          have := hfirst (j + 1) (by omega)
          simpa using this
        have := ih k (n + 1) hk hfirst'
        simp only [parseRowsFrom, this]
        congr 1
        omega

/-! ## Further map lemmas used by the claim theorems -/

theorem keysOf_map_value {α β : Type} (m : List (String × α)) (g : String × α → β) :
    keysOf (m.map (fun p => (p.1, g p))) = keysOf m := by
  simp [keysOf, List.map_map, Function.comp]

theorem hmGet_map_value {α β : Type} (m : List (String × α)) (g : α → β) (k : String) :
    hmGet (m.map (fun p => (p.1, g p.2))) k = (hmGet m k).map g := by
  induction m with
  | nil => rfl
  | cons p rest ih =>
    by_cases hpk : p.1 = k <;> simp [hmGet, hpk, ih]

theorem statsPass_fst_eq (data : List Row) (headers : List String) :
    (statsPass data headers).1 = (data.map rowEmpties).sum := by
  have := statsPass_fst data (0, initUV headers)
  simpa [statsPass] using this

theorem statsPass_get_eq (data : List Row) (headers : List String) (k : String) :
    hmGet (statsPass data headers).2 k =
      (hmGet (initUV headers) k).map (fun s => s ∪ (colVals data k).toFinset) :=
  statsPass_get data (0, initUV headers) k

theorem statsPass_keys_eq (data : List Row) (headers : List String) :
    keysOf (statsPass data headers).2 = keysOf (initUV headers) :=
  statsPass_keys data (0, initUV headers)

/-! ## The claims -/

/-- Claim C1: for every data line, the row is built by pairing fields with
header names positionally up to `min(header count, field count)`: a header
index below both counts maps to the field at the same index, a header index
at or beyond the line's field count is absent from the row's mapping
(`none`, not an empty-string value), and the keys of the row are exactly
the headers paired with some field, so any field index beyond the header
count contributes nothing.  Stated for duplicate-free headers; duplicated
header names are the subject of claim C9. -/
theorem c1_positional_pairing (headers fields : List String) (hnd : headers.Nodup) :
    (∀ (i : Nat) (hi : i < headers.length) (hif : i < fields.length),
        hmGet (buildRow headers fields) headers[i] = some fields[i])
  ∧ (∀ (i : Nat) (hi : i < headers.length), fields.length ≤ i →
        hmGet (buildRow headers fields) headers[i] = none)
  ∧ (∀ k, k ∈ keysOf (buildRow headers fields) ↔ k ∈ headers.take fields.length) := by
  refine ⟨?_, ?_, ?_⟩
  · intro i hi hif
    rw [buildRow_get]
    have hzn : (keysOf (headers.zip fields)).Nodup := by
      rw [keysOf_zip]
      exact hnd.sublist (List.take_sublist _ _)
    rw [hmGet_reverse_of_nodup _ _ hzn]
    exact hmGet_zip_pos headers fields i hi hif hnd
  · intro i hi hfl
    rw [hmGet_eq_none_iff]
    rw [mem_keysOf_buildRow]
    exact getElem_not_mem_take headers fields.length i hnd hi hfl
  · exact mem_keysOf_buildRow headers fields

/-- Witness for C1 at the spec's boundary scenario: a three-header file
with a two-field line keeps the paired cells and leaves the third header
absent, not empty-valued. -/
theorem c1_witness :
    hmGet (buildRow ["name", "age", "job"] ["Alice", "30"]) "name" = some "Alice"
  ∧ hmGet (buildRow ["name", "age", "job"] ["Alice", "30"]) "job" = none := by
  have h := c1_positional_pairing ["name", "age", "job"] ["Alice", "30"] (by decide)
  exact ⟨h.1 0 (by decide) (by decide), h.2.1 2 (by decide) (by decide)⟩

/-- Claim C9: when the header list contains duplicate names, row
construction is last-column-wins: a duplicated header name maps to the
field at the greatest column index, among the indices naming it, that is
present in the line (later columns overwrite earlier ones). -/
theorem c9_last_column_wins (headers fields : List String) (k : String) (i : Nat)
    (hi : i < headers.length) (hif : i < fields.length) (hk : headers[i] = k)
    (hmax : ∀ (j : Nat) (hjh : j < headers.length) (hjf : j < fields.length),
      headers[j] = k → j ≤ i) :
    hmGet (buildRow headers fields) k = some fields[i] := by
  rw [buildRow_get]
  have hiz : i < (headers.zip fields).length := by
    rw [List.length_zip]
    omega
  have hzk : ((headers.zip fields)[i]).1 = k := by
    rw [List.getElem_zip]
    exact hk
  have hmax' : ∀ (j : Nat) (hj : j < (headers.zip fields).length),
      ((headers.zip fields)[j]).1 = k → j ≤ i := by
    intro j hj hjk
    rw [List.length_zip] at hj
    rw [List.getElem_zip] at hjk
    exact hmax j (by omega) (by omega) hjk
  have := hmGet_reverse_last_match (headers.zip fields) k i hiz hzk hmax'
  rw [this, List.getElem_zip]

/-- Witness for C9: with headers `a, a`, the second column's field wins. -/
theorem c9_witness : hmGet (buildRow ["a", "a"] ["x", "y"]) "a" = some "y" := by
  have h := c9_last_column_wins ["a", "a"] ["x", "y"] "a" 1 (by decide) (by decide)
    (by decide) (by intro j hj hjf hk; simp at hj; omega)
  exact h

/-- Claim C10 (implicit invariant): every key of a parsed row is one of the
header names; a row therefore has at most as many entries as there are
distinct header names; and the statistics pass's per-column distinct-value
sets receive every cell of every parsed row (no cell misses its column
set). -/
theorem c10_row_key_invariant (headers : List String) (data : List Row)
    (hdata : ∀ row ∈ data, ∃ fields, row = buildRow headers fields) :
    (∀ row ∈ data, ∀ k, k ∈ keysOf row → k ∈ headers)
  ∧ (∀ row ∈ data, row.length ≤ headers.dedup.length)
  ∧ (∀ row ∈ data, ∀ c ∈ row, ∃ s,
      hmGet (statsPass data headers).2 c.1 = some s ∧ c.2 ∈ s) := by
  have hkey : ∀ row ∈ data, ∀ k, k ∈ keysOf row → k ∈ headers := by
    intro row hrow k hk
    obtain ⟨fields, rfl⟩ := hdata row hrow
    rw [mem_keysOf_buildRow] at hk
    exact List.take_subset _ _ hk
  refine ⟨hkey, ?_, ?_⟩
  · intro row hrow
    obtain ⟨fields, hfields⟩ := hdata row hrow
    have hlen : row.length = (keysOf row).length := by simp [keysOf]
    have hnd : (keysOf row).Nodup := hfields ▸ buildRow_keys_nodup headers fields
    have hsub : (keysOf row).toFinset ⊆ headers.toFinset := by
      intro x hx
      rw [List.mem_toFinset] at hx ⊢
      exact hkey row hrow x hx
    have h1 : (keysOf row).toFinset.card = (keysOf row).length :=
      List.toFinset_card_of_nodup hnd
    have h2 : headers.toFinset.card = headers.dedup.length := List.card_toFinset headers
    have := Finset.card_le_card hsub
    omega
  · intro row hrow c hc
    have hkmem : c.1 ∈ headers :=
      hkey row hrow c.1 (List.mem_map_of_mem Prod.fst hc)
    refine ⟨(∅ : Finset String) ∪ (colVals data c.1).toFinset, ?_, ?_⟩
    · rw [statsPass_get_eq, initUV_get]
      simp [hkmem]
    · rw [Finset.empty_union, List.mem_toFinset, mem_colVals]
      exact ⟨row, hrow, by simpa using hc⟩

/-- Witness for C10 on a one-row table with a short line. -/
theorem c10_witness :
    (buildRow ["a", "b"] ["x"]).length ≤ (["a", "b"].dedup).length
  ∧ ∃ s, hmGet (statsPass [buildRow ["a", "b"] ["x"]] ["a", "b"]).2 "a" = some s
      ∧ "x" ∈ s := by
  have h := c10_row_key_invariant ["a", "b"] [buildRow ["a", "b"] ["x"]]
    (by intro row hrow; rw [List.mem_singleton] at hrow; exact ⟨["x"], hrow⟩)
  refine ⟨h.2.1 _ (by simp), ?_⟩
  have := h.2.2 (buildRow ["a", "b"] ["x"]) (by simp) ("a", "x") (by decide)
  exact this

/-- Claim C4: `empty_cells` is the number of cells actually present in the
rows' mappings whose trimmed value is the empty string — summed row by row
over the entries each row really has, so keys absent from a short row
contribute nothing — and a table with zero data lines yields 0. -/
theorem c4_empty_cells (headers : List String) (data : List Row) :
    (calculate_stats data headers).empty_cells = (data.map rowEmpties).sum
  ∧ (calculate_stats ([] : List Row) headers).empty_cells = 0 := by
  constructor
  · simpa [calculate_stats] using statsPass_fst_eq data headers
  · rfl

/-- Claim C5: after a successful parse, `total_rows` is the number of data
lines successfully parsed (which is the table's length) and
`total_columns` is the header count, regardless of the rows' own sizes. -/
theorem c5_totals (headers : List String) (records : List RecordOutcome) (data : List Row)
    (hp : parseRows headers records = .ok data) :
    (calculate_stats data headers).total_rows = data.length
  ∧ data.length = records.length
  ∧ (calculate_stats data headers).total_columns = headers.length := by
  exact ⟨rfl, parseRowsFrom_ok_length headers records 0 data hp, rfl⟩

/-- Witness for C5: two records, one of them short. -/
theorem c5_witness :
    (calculate_stats [buildRow ["a", "b"] ["1", "2"], buildRow ["a", "b"] ["3"]]
      ["a", "b"]).total_rows = 2
  ∧ (calculate_stats [buildRow ["a", "b"] ["1", "2"], buildRow ["a", "b"] ["3"]]
      ["a", "b"]).total_columns = 2 := by
  have hp : parseRows ["a", "b"] [some ["1", "2"], some ["3"]] =
      .ok [buildRow ["a", "b"] ["1", "2"], buildRow ["a", "b"] ["3"]] := by
    simp [parseRows, parseRowsFrom]
  have h := c5_totals ["a", "b"] [some ["1", "2"], some ["3"]]
    [buildRow ["a", "b"] ["1", "2"], buildRow ["a", "b"] ["3"]] hp
  exact ⟨h.1.trans rfl, h.2.2.trans rfl⟩

/-- Claim C3: a data line that cannot be parsed under the quoting rules
fails the whole parse with a record error carrying the 1-based physical
line number: the header occupies line 1 and record `k` (0-based) occupies
physical line `k + 2`, so the first faulty data line is reported as its
physical line, and no partial table is returned. -/
theorem c3_record_error_line (headers : List String) (records : List RecordOutcome)
    (k : Nat) (hk : records[k]? = some none)
    (hfirst : ∀ j, j < k → records[j]? ≠ some none) :
    parseRows headers records = .error (k + 2)
  ∧ ∀ rows, parseRows headers records ≠ .ok rows := by
  have h := parseRowsFrom_first_error headers records k 0 hk hfirst
  rw [Nat.zero_add] at h
  refine ⟨h, ?_⟩
  intro rows hok
  rw [parseRows] at hok
  rw [h] at hok
  cases hok

/-- Witness for C3: the spec's scenario — the second data record is
malformed, so the reported physical line is 3. -/
theorem c3_witness :
    parseRows ["h"] [some ["ok"], none] = .error 3 := by
  have h := c3_record_error_line ["h"] [some ["ok"], none] 1 (by decide)
    (by intro j hj; interval_cases j <;> decide)
  exact h.1

/-- Claim C2: the Stats snapshot's `column_unique_counts` has exactly one
entry per header name (its keys are duplicate-free and are exactly the
header names); every count is at most `total_rows`; and a count is 0
exactly when no row's mapping contains that header's key.  The rows are
assumed well-formed maps (duplicate-free keys), which is what the parser
produces. -/
theorem c2_column_unique_counts (headers : List String) (data : List Row)
    (hnd : ∀ row ∈ data, (keysOf row).Nodup) :
    (keysOf (calculate_stats data headers).column_unique_counts).Nodup
  ∧ (∀ k, k ∈ keysOf (calculate_stats data headers).column_unique_counts ↔ k ∈ headers)
  ∧ (∀ k n, hmGet (calculate_stats data headers).column_unique_counts k = some n →
      n ≤ (calculate_stats data headers).total_rows
      ∧ (n = 0 ↔ ∀ row ∈ data, ∀ v, (k, v) ∉ row)) := by
  have hcounts : (calculate_stats data headers).column_unique_counts =
      (statsPass data headers).2.map (fun p => (p.1, p.2.card)) := rfl
  have hkeys : keysOf (calculate_stats data headers).column_unique_counts =
      keysOf (initUV headers) := by
    rw [hcounts, keysOf_map_value, statsPass_keys_eq]
  refine ⟨?_, ?_, ?_⟩
  · rw [hkeys]
    exact initUV_keys_nodup headers
  · intro k
    rw [hkeys]
    exact mem_initUV_keys headers k
  · intro k n hget
    rw [hcounts, hmGet_map_value, statsPass_get_eq, initUV_get] at hget
    by_cases hmem : k ∈ headers
    · rw [if_pos hmem] at hget
      simp only [Option.map_some', Option.some.injEq, Finset.empty_union] at hget
      subst hget
      constructor
      · calc (colVals data k).toFinset.card
            ≤ (colVals data k).length := List.toFinset_card_le _
          _ ≤ data.length := colVals_length_le data k hnd
          _ = (calculate_stats data headers).total_rows := rfl
      · rw [Finset.card_eq_zero, List.toFinset_eq_empty_iff, colVals_eq_nil_iff]
    · rw [if_neg hmem] at hget
      simp at hget

/-- Witness for C2 on the spec's worked scenario (three headers, an empty
age cell in the second row, one column key queried). -/
theorem c2_witness :
    ∃ n, hmGet (calculate_stats
        [buildRow ["name", "age", "job"] ["Alice", "30", "Engineer"],
         buildRow ["name", "age", "job"] ["Bob", "", "Designer"]]
        ["name", "age", "job"]).column_unique_counts "age" = some n
      ∧ n ≤ 2 ∧ n ≠ 0 := by
  have h := c2_column_unique_counts ["name", "age", "job"]
    [buildRow ["name", "age", "job"] ["Alice", "30", "Engineer"],
     buildRow ["name", "age", "job"] ["Bob", "", "Designer"]]
    (by intro row hrow; simp at hrow; rcases hrow with h1 | h1 <;> subst h1 <;> decide)
  have hget : hmGet (calculate_stats
      [buildRow ["name", "age", "job"] ["Alice", "30", "Engineer"],
       buildRow ["name", "age", "job"] ["Bob", "", "Designer"]]
      ["name", "age", "job"]).column_unique_counts "age" = some 2 := by decide
  refine ⟨2, hget, (h.2.2 "age" 2 hget).1.trans ?_, by decide⟩
  decide

/-! ## Round-trip lemmas: the emitted document parses back -/

theorem skipWs_cons_ws (c : Char) (l : List Char) (h : isWsChar c = true) :
    skipWs (c :: l) = skipWs l := by
  simp [skipWs, h]

theorem skipWs_cons_not (c : Char) (l : List Char) (h : isWsChar c = false) :
    skipWs (c :: l) = c :: l := by
  simp [skipWs, h]

theorem skipWs_idem (l : List Char) : skipWs (skipWs l) = skipWs l := by
  induction l with
  | nil => rfl
  | cons c rest ih =>
    by_cases h : isWsChar c
    · rw [skipWs_cons_ws c rest h, ih]
    · rw [skipWs_cons_not c rest (by simpa using h), skipWs_cons_not c rest (by simpa using h)]

theorem hexVal_hexDigit (m : Nat) (hm : m < 16) : hexVal (hexDigit m) = some m := by
  interval_cases m <;> decide

theorem parseStringBody_escape (cs : List Char) :
    ∀ rest : List Char,
      parseStringBody (cs.flatMap escapeChar ++ '\"' :: rest) = some (cs, rest) := by
  induction cs with
  | nil =>
    intro rest
    rw [parseStringBody.eq_def]
    simp
  | cons c cs ih =>
    intro rest
    simp only [List.flatMap_cons, List.append_assoc]
    by_cases h1 : c = '\"'
    · subst h1
      rw [escapeChar, if_pos rfl, List.cons_append, List.cons_append, List.nil_append,
        parseStringBody.eq_def]
      simp +decide [unescape1, ih]
    · by_cases h2 : c = '\\'
      · subst h2
        rw [escapeChar]
        rw [if_neg (by decide), if_pos rfl, List.cons_append, List.cons_append,
          List.nil_append, parseStringBody.eq_def]
        simp +decide [unescape1, ih]
      · by_cases h3 : c = Char.ofNat 8
        · subst h3
          rw [escapeChar]
          rw [if_neg (by decide), if_neg (by decide), if_pos rfl, List.cons_append,
            List.cons_append, List.nil_append, parseStringBody.eq_def]
          simp +decide [unescape1, ih]
        · by_cases h4 : c = Char.ofNat 12
          · subst h4
            rw [escapeChar]
            rw [if_neg (by decide), if_neg (by decide), if_neg (by decide), if_pos rfl,
              List.cons_append, List.cons_append, List.nil_append, parseStringBody.eq_def]
            simp +decide [unescape1, ih]
          · by_cases h5 : c = '\n'
            · subst h5
              rw [escapeChar]
              rw [if_neg (by decide), if_neg (by decide), if_neg (by decide),
                if_neg (by decide), if_pos rfl, List.cons_append, List.cons_append,
                List.nil_append, parseStringBody.eq_def]
              simp +decide [unescape1, ih]
            · by_cases h6 : c = Char.ofNat 13
              · subst h6
                rw [escapeChar]
                rw [if_neg (by decide), if_neg (by decide), if_neg (by decide),
                  if_neg (by decide), if_neg (by decide), if_pos rfl, List.cons_append,
                  List.cons_append, List.nil_append, parseStringBody.eq_def]
                simp +decide [unescape1, ih]
              · by_cases h7 : c = '\t'
                · subst h7
                  rw [escapeChar]
                  rw [if_neg (by decide), if_neg (by decide), if_neg (by decide),
                    if_neg (by decide), if_neg (by decide), if_neg (by decide), if_pos rfl,
                    List.cons_append, List.cons_append, List.nil_append,
                    parseStringBody.eq_def]
                  simp +decide [unescape1, ih]
                · by_cases h8 : c.toNat < 32
                  · have hdiv : c.toNat / 16 < 16 := by omega
                    have hmod : c.toNat % 16 < 16 := by omega
                    have hn : ((0 * 16 + 0) * 16 + c.toNat / 16) * 16 + c.toNat % 16
                        = c.toNat := by omega
                    rw [escapeChar, if_neg h1, if_neg h2, if_neg h3, if_neg h4, if_neg h5,
                      if_neg h6, if_neg h7, if_pos h8]
                    rw [List.cons_append, List.cons_append, List.cons_append,
                      List.cons_append, List.cons_append, List.cons_append,
                      List.nil_append, parseStringBody.eq_def]
                    simp +decide only []
                    rw [hexVal_hexDigit _ hdiv, hexVal_hexDigit _ hmod]
                    simp only [show hexVal '0' = some 0 from rfl]
                    rw [ih rest]
                    have hn2 : c.toNat / 16 * 16 + c.toNat % 16 = c.toNat := by omega
                    simp [hn, hn2, Char.ofNat_toNat]
                  · rw [escapeChar, if_neg h1, if_neg h2, if_neg h3, if_neg h4, if_neg h5,
                      if_neg h6, if_neg h7, if_neg h8]
                    rw [List.cons_append, List.nil_append, parseStringBody.eq_def]
                    simp [h1, h2, ih]


theorem stringMk_data (s : String) : String.mk s.data = s := rfl

theorem parseObjFields_congr (fuel : Nat) {l1 l2 : List Char} (h : skipWs l1 = skipWs l2) :
    parseObjFields fuel l1 = parseObjFields fuel l2 := by
  cases fuel with
  | zero => rfl
  | succ fuel =>
    unfold parseObjFields
    rw [h]

theorem parseObjFields_field_step (f : String × String) (fuel : Nat) (Z : List Char) :
    parseObjFields (fuel + 1) (renderFieldChars f ++ Z) =
      (match skipWs Z with
       | [] => none
       | c3 :: rest5 =>
         if c3 = ',' then
           match parseObjFields fuel rest5 with
           | none => none
           | some (fields, rest6) => some (f :: fields, rest6)
         else if c3 = rbrace then some ([f], rest5)
         else none) := by
  conv_lhs => rw [parseObjFields.eq_def]
  simp only [renderFieldChars, renderStringChars, List.cons_append, List.append_assoc,
    List.nil_append]
  rw [skipWs_cons_ws _ _ (by decide), skipWs_cons_ws _ _ (by decide),
    skipWs_cons_ws _ _ (by decide), skipWs_cons_ws _ _ (by decide),
    skipWs_cons_not _ _ (by decide)]
  simp +decide only [parseStringBody_escape, skipWs_cons_not, skipWs_cons_ws, if_pos]


theorem parseObjFields_ws (fuel : Nat) (c : Char) (l : List Char) (h : isWsChar c = true) :
    parseObjFields fuel (c :: l) = parseObjFields fuel l :=
  parseObjFields_congr fuel (skipWs_cons_ws c l h)

theorem parseObjFields_render (fields : List (String × String)) :
    ∀ (fuel : Nat) (tail : List Char), fields ≠ [] → fields.length < fuel →
      parseObjFields fuel
        (sepConcat [',', '\n'] (fields.map renderFieldChars) ++
          '\n' :: ' ' :: ' ' :: rbrace :: tail)
      = some (fields, tail) := by
  induction fields with
  | nil => intro fuel tail hne; exact absurd rfl hne
  | cons f fs ih =>
    intro fuel tail _ hfuel
    cases fuel with
    | zero => omega
    | succ fuel =>
      cases fs with
      | nil =>
        simp only [List.map_cons, List.map_nil, sepConcat]
        rw [parseObjFields_field_step]
        rw [skipWs_cons_ws _ _ (by decide), skipWs_cons_ws _ _ (by decide),
          skipWs_cons_ws _ _ (by decide), skipWs_cons_not _ _ (by decide)]
        simp +decide
      | cons g gs =>
        simp only [List.map_cons, sepConcat, List.cons_append, List.append_assoc,
          List.nil_append]
        rw [parseObjFields_field_step]
        rw [skipWs_cons_not _ _ (by decide)]
        simp +decide only [if_pos]
        rw [parseObjFields_ws fuel '\n' _ (by decide)]
        have hlen : (g :: gs).length < fuel := by
          simp only [List.length_cons] at hfuel ⊢
          omega
        have hih := ih fuel tail (by simp) hlen
        rw [List.map_cons] at hih
        rw [hih]


theorem parseObject_congr (fuel : Nat) {l1 l2 : List Char} (h : skipWs l1 = skipWs l2) :
    parseObject fuel l1 = parseObject fuel l2 := by
  unfold parseObject
  rw [h]

theorem parseObject_ws (fuel : Nat) (c : Char) (l : List Char) (h : isWsChar c = true) :
    parseObject fuel (c :: l) = parseObject fuel l :=
  parseObject_congr fuel (skipWs_cons_ws c l h)

theorem skipWs_fields_starts (f : String × String) (fs : List (String × String))
    (Z : List Char) :
    ∃ Y, skipWs (sepConcat [',', '\n'] ((f :: fs).map renderFieldChars) ++ Z)
      = '\"' :: Y := by
  have hshape : ∃ W, sepConcat [',', '\n'] ((f :: fs).map renderFieldChars) ++ Z
      = renderFieldChars f ++ W := by
    cases fs with
    | nil => exact ⟨Z, by simp [sepConcat]⟩
    | cons g gs =>
      refine ⟨[',', '\n'] ++ sepConcat [',', '\n'] ((g :: gs).map renderFieldChars) ++ Z, ?_⟩
      simp [sepConcat, List.append_assoc]
  obtain ⟨W, hW⟩ := hshape
  rw [hW]
  simp only [renderFieldChars, renderStringChars, List.cons_append, List.append_assoc,
    List.nil_append]
  rw [skipWs_cons_ws _ _ (by decide), skipWs_cons_ws _ _ (by decide),
    skipWs_cons_ws _ _ (by decide), skipWs_cons_ws _ _ (by decide),
    skipWs_cons_not _ _ (by decide)]
  exact ⟨_, rfl⟩

theorem parseObject_render (row : Row) (fuel : Nat) (tail : List Char)
    (hfuel : row.length < fuel) :
    parseObject fuel (renderObjChars row ++ tail) = some (row, tail) := by
  cases row with
  | nil =>
    unfold parseObject
    simp only [renderObjChars, List.cons_append, List.nil_append]
    rw [skipWs_cons_not _ _ (by decide)]
    simp +decide only []
    rw [skipWs_cons_not _ _ (by decide)]
    simp +decide only []
    simp
  | cons f fs =>
    unfold parseObject
    simp only [renderObjChars, List.cons_append, List.append_assoc, List.nil_append]
    rw [skipWs_cons_not _ _ (by decide)]
    simp +decide only []
    rw [skipWs_cons_ws _ _ (by decide)]
    obtain ⟨Y, hY⟩ := skipWs_fields_starts f fs ('\n' :: ' ' :: ' ' :: rbrace :: tail)
    rw [hY]
    simp +decide only []
    have hcongr : parseObjFields fuel ('\"' :: Y) = parseObjFields fuel
        (sepConcat [',', '\n'] ((f :: fs).map renderFieldChars) ++
          '\n' :: ' ' :: ' ' :: rbrace :: tail) := by
      refine parseObjFields_congr fuel ?_
      rw [skipWs_cons_not _ _ (by decide), ← hY]
    rw [hcongr, parseObjFields_render (f :: fs) fuel tail (by simp) hfuel]
    simp


theorem parseArrayItems_congr (fuel : Nat) {l1 l2 : List Char}
    (h : skipWs l1 = skipWs l2) :
    parseArrayItems fuel l1 = parseArrayItems fuel l2 := by
  cases fuel with
  | zero => rfl
  | succ fuel =>
    unfold parseArrayItems
    rw [parseObject_congr fuel h]

theorem parseArrayItems_ws (fuel : Nat) (c : Char) (l : List Char)
    (h : isWsChar c = true) :
    parseArrayItems fuel (c :: l) = parseArrayItems fuel l :=
  parseArrayItems_congr fuel (skipWs_cons_ws c l h)

theorem parseArrayItems_render (rows : List Row) :
    ∀ (fuel : Nat) (tail : List Char), rows ≠ [] →
      rows.length + (rows.map List.length).sum < fuel →
      parseArrayItems fuel
        (sepConcat [',', '\n'] (rows.map renderRowChars) ++ '\n' :: ']' :: tail)
      = some (rows, tail) := by
  induction rows with
  | nil => intro fuel tail hne; exact absurd rfl hne
  | cons r rs ih =>
    intro fuel tail _ hfuel
    cases fuel with
    | zero => omega
    | succ fuel =>
      unfold parseArrayItems
      cases rs with
      | nil =>
        simp only [List.map_cons, List.map_nil, sepConcat, renderRowChars,
          List.cons_append, List.append_assoc, List.nil_append]
        rw [parseObject_ws fuel _ _ (by decide), parseObject_ws fuel _ _ (by decide)]
        rw [parseObject_render r fuel _ (by simp at hfuel; omega)]
        simp +decide only []
        rw [skipWs_cons_ws _ _ (by decide), skipWs_cons_not _ _ (by decide)]
        simp +decide only []
        simp
      | cons g gs =>
        simp only [List.map_cons, sepConcat, renderRowChars, List.cons_append,
          List.append_assoc, List.nil_append]
        rw [parseObject_ws fuel _ _ (by decide), parseObject_ws fuel _ _ (by decide)]
        rw [parseObject_render r fuel _ (by simp at hfuel; omega)]
        simp +decide only []
        rw [skipWs_cons_not _ _ (by decide)]
        simp +decide only []
        rw [parseArrayItems_ws fuel '\n' _ (by decide)]
        have hih := ih fuel tail (by simp) (by simp at hfuel ⊢; omega)
        simp only [List.map_cons, sepConcat, renderRowChars] at hih
        rw [hih]
        simp


theorem length_le_map_sum {α : Type} (l : List α) (f : α → Nat)
    (h : ∀ x ∈ l, 1 ≤ f x) : l.length ≤ (l.map f).sum := by
  induction l with
  | nil => simp
  | cons x xs ih =>
    have h1 := h x (List.mem_cons_self x xs)
    have h2 := ih (fun y hy => h y (List.mem_cons_of_mem x hy))
    simp only [List.length_cons, List.map_cons, List.sum_cons]
    omega

theorem sum_le_sepConcat_length (sep : List Char) (ls : List (List Char)) :
    (ls.map List.length).sum ≤ (sepConcat sep ls).length := by
  induction ls with
  | nil => simp [sepConcat]
  | cons x xs ih =>
    cases xs with
    | nil => simp [sepConcat]
    | cons y ys =>
      simp only [List.map_cons, List.sum_cons, sepConcat, List.length_append] at ih ⊢
      omega

theorem row_bound_renderRowChars (row : Row) :
    row.length + 1 ≤ (renderRowChars row).length := by
  cases row with
  | nil => simp [renderRowChars, renderObjChars]
  | cons f fs =>
    have h1 : ((f :: fs).map renderFieldChars).length = (f :: fs).length := by simp
    have h2 : (f :: fs).length ≤
        (((f :: fs).map renderFieldChars).map List.length).sum := by
      rw [List.map_map]
      refine length_le_map_sum _ _ ?_
      intro x _
      simp [Function.comp, renderFieldChars]
    have h3 := sum_le_sepConcat_length [',', '\n'] ((f :: fs).map renderFieldChars)
    simp only [renderRowChars, renderObjChars, List.length_cons, List.length_append]
    simp only [List.length_cons] at h2 ⊢
    omega

theorem doc_bound_renderDocChars (rows : List Row) (hne : rows ≠ []) :
    rows.length + (rows.map List.length).sum < (renderDocChars rows).length + 1 := by
  cases rows with
  | nil => exact absurd rfl hne
  | cons r rs =>
    have h2 : ((r :: rs).map (fun row => List.length row + 1)).sum ≤
        (((r :: rs).map renderRowChars).map List.length).sum := by
      rw [List.map_map]
      refine List.sum_le_sum ?_
      intro row _
      simpa [Function.comp] using row_bound_renderRowChars row
    have h3 := sum_le_sepConcat_length [',', '\n'] ((r :: rs).map renderRowChars)
    have h4 : ((r :: rs).map (fun row => List.length row + 1)).sum =
        ((r :: rs).map List.length).sum + (r :: rs).length := by
      clear h2 h3 hne
      induction rs with
      | nil => simp
      | cons g gs ih =>
        simp only [List.map_cons, List.sum_cons, List.length_cons] at ih ⊢
        omega
    simp only [renderDocChars, List.length_cons, List.length_append, List.map_cons,
      List.sum_cons] at h2 h3 h4 ⊢
    omega

theorem renderObjChars_starts (row : Row) : ∃ T, renderObjChars row = lbrace :: T := by
  cases row with
  | nil => exact ⟨[rbrace], rfl⟩
  | cons f fs => exact ⟨_, rfl⟩

theorem stringData_mk (l : List Char) : (String.mk l).data = l := rfl

theorem parseDoc_renderDoc (rows : List Row) : parseDoc (renderDoc rows) = some rows := by
  cases rows with
  | nil => rfl
  | cons r rs =>
    unfold parseDoc renderDoc
    simp only [stringData_mk]
    have hlen := doc_bound_renderDocChars (r :: rs) (by simp)
    simp only [renderDocChars, List.cons_append, List.append_assoc, List.nil_append] at *
    rw [skipWs_cons_not _ _ (by decide)]
    simp +decide only []
    rw [skipWs_cons_ws _ _ (by decide)]
    have hstart : ∃ Y, skipWs (sepConcat [',', '\n'] ((r :: rs).map renderRowChars)
        ++ '\n' :: ']' :: ([] : List Char)) = lbrace :: Y := by
      have hshape : ∃ W, sepConcat [',', '\n'] ((r :: rs).map renderRowChars)
          ++ '\n' :: ']' :: ([] : List Char) = renderRowChars r ++ W := by
        cases rs with
        | nil => exact ⟨'\n' :: ']' :: [], by simp [sepConcat]⟩
        | cons g gs =>
          refine ⟨[',', '\n'] ++ sepConcat [',', '\n'] ((g :: gs).map renderRowChars)
            ++ '\n' :: ']' :: [], ?_⟩
          simp [sepConcat, List.append_assoc]
      obtain ⟨W, hW⟩ := hshape
      rw [hW]
      obtain ⟨T, hT⟩ := renderObjChars_starts r
      simp only [renderRowChars, hT, List.cons_append]
      rw [skipWs_cons_ws _ _ (by decide), skipWs_cons_ws _ _ (by decide),
        skipWs_cons_not _ _ (by decide)]
      exact ⟨_, rfl⟩
    obtain ⟨Y, hY⟩ := hstart
    rw [hY]
    simp +decide only [if_true, if_false]
    rw [parseArrayItems_ws _ '\n' _ (by decide)]
    rw [parseArrayItems_render (r :: rs) _ [] (by simp) hlen]
    simp [skipWs]

/-- Claim C6: on any error the run produces no partial output.  A record
error leaves `written = none` (no output file is created or overwritten),
and an unwritable destination fails with the write error for that path,
only at the write step: the in-memory document has been fully constructed
from the parsed table by then. -/
theorem c6_no_partial_output (ipath opath : String) (headers : List String)
    (records : List RecordOutcome) (w : Bool) :
    (∀ (file : Option CsvFile) (e : ConversionError),
        (convert_dynamic ipath file (some opath) w).result = .error e →
        (convert_dynamic ipath file (some opath) w).written = none)
  ∧ (∀ k, records[k]? = some none → (∀ j, j < k → records[j]? ≠ some none) →
      (convert_dynamic ipath (some ⟨some headers, records⟩) (some opath) w).result
        = .error (.CsvRecordError (k + 2))
      ∧ (convert_dynamic ipath (some ⟨some headers, records⟩) (some opath) w).written
        = none)
  ∧ (∀ rows, parseRows headers records = .ok rows →
      (convert_dynamic ipath (some ⟨some headers, records⟩) (some opath) false).result
        = .error (.FileWriteError opath)
      ∧ (convert_dynamic ipath (some ⟨some headers, records⟩) (some opath) false).written
        = none
      ∧ (convert_dynamic ipath (some ⟨some headers, records⟩) (some opath) false).doc
        = some (renderDoc rows)) := by
  refine ⟨?_, ?_, ?_⟩
  · intro file e herr
    cases file with
    | none => rfl
    | some f =>
      cases hh : f.header with
      | none => simp [convert_dynamic, hh]
      | some hs =>
        cases hp : parseRows hs f.records with
        | error n => simp [convert_dynamic, hh, hp]
        | ok rows =>
          cases w with
          | false => simp [convert_dynamic, hh, hp]
          | true => simp [convert_dynamic, hh, hp] at herr
  · intro k hk hfirst
    have hp := parseRowsFrom_first_error headers records k 0 hk hfirst
    rw [Nat.zero_add] at hp
    constructor <;> simp [convert_dynamic, parseRows, hp]
  · intro rows hp
    refine ⟨?_, ?_, ?_⟩ <;> simp [convert_dynamic, hp]

/-- Witness for C6: a malformed second record reports physical line 3 and
writes nothing; an unwritable destination fails with the write error while
the document was built. -/
theorem c6_witness :
    (convert_dynamic "in.csv" (some ⟨some ["a"], [some ["1"], none]⟩)
        (some "out.json") true).result = .error (.CsvRecordError 3)
  ∧ (convert_dynamic "in.csv" (some ⟨some ["a"], [some ["1"], none]⟩)
        (some "out.json") true).written = none
  ∧ (convert_dynamic "in.csv" (some ⟨some ["a"], [some ["1"]]⟩)
        (some "out.json") false).result = .error (.FileWriteError "out.json")
  ∧ (convert_dynamic "in.csv" (some ⟨some ["a"], [some ["1"]]⟩)
        (some "out.json") false).doc = some (renderDoc [buildRow ["a"] ["1"]]) := by
  have h1 := (c6_no_partial_output "in.csv" "out.json" ["a"] [some ["1"], none] true).2.1
    1 (by decide) (by intro j hj; interval_cases j; decide)
  have h2 := (c6_no_partial_output "in.csv" "out.json" ["a"] [some ["1"]] false).2.2
    [buildRow ["a"] ["1"]] (by simp [parseRows, parseRowsFrom])
  exact ⟨h1.1, h1.2, h2.1, h2.2.2⟩

/-- Counterexample to claim C7 as stated.  The claim asks for byte-identical
output documents across two runs on the same input.  The serializer writes
each row's entries in the `HashMap`'s unspecified iteration order; both
orders below are renderings of the same one-row parsed table, yet the
documents differ byte for byte. -/
theorem c7_counterexample :
    Rendering [buildRow ["name", "age"] ["Alice", "30"]]
        [[("name", "Alice"), ("age", "30")]]
  ∧ Rendering [buildRow ["name", "age"] ["Alice", "30"]]
        [[("age", "30"), ("name", "Alice")]]
  ∧ renderDoc [[("name", "Alice"), ("age", "30")]]
      ≠ renderDoc [[("age", "30"), ("name", "Alice")]] := by
  refine ⟨?_, ?_, ?_⟩
  · exact List.Forall₂.cons (by decide) List.Forall₂.nil
  · exact List.Forall₂.cons (by decide) List.Forall₂.nil
  · decide

/-- Claim C7 (amended): two runs of the conversion on the same input
produce documents with the same rows in the same order and the same
key/value pairs per row; the bytes coincide whenever the unspecified map
iteration orders happen to coincide, but byte-identity is not guaranteed
(see the counterexample). -/
theorem c7_same_content_documents (data o1 o2 : List Row)
    (h1 : Rendering data o1) (h2 : Rendering data o2) :
    o1.length = o2.length
  ∧ List.Forall₂ (fun a b => List.Perm a b) o1 o2
  ∧ (o1 = o2 → renderDoc o1 = renderDoc o2) := by
  have hperm : List.Forall₂ (fun a b => List.Perm a b) o1 o2 := by
    induction h1 generalizing o2 with
    | nil =>
      cases h2
      exact List.Forall₂.nil
    | cons hr hrest ih =>
      cases h2 with
      | cons hr2 hrest2 =>
        exact List.Forall₂.cons (hr.trans hr2.symm) (ih _ hrest2)
  exact ⟨hperm.length_eq, hperm, fun h => by rw [h]⟩

/-- Witness for C7's amended claim at the counterexample's input. -/
theorem c7_witness :
    List.Forall₂ (fun a b => List.Perm a b)
      [[("a", "x"), ("b", "y")]] [[("b", "y"), ("a", "x")]] := by
  have h := c7_same_content_documents [buildRow ["a", "b"] ["x", "y"]]
    [[("a", "x"), ("b", "y")]] [[("b", "y"), ("a", "x")]]
    (List.Forall₂.cons (by decide) List.Forall₂.nil)
    (List.Forall₂.cons (by decide) List.Forall₂.nil)
  exact h.2.1

/-- Claim C8: serializing the parsed table (in any entry order per row the
map may present) and re-parsing the produced document yields a collection
with the same number of entries as the table and, row by row in preserved
order, the same key/value content — entry order within an object may vary,
being a permutation of the row's cells. -/
theorem c8_round_trip (data ords : List Row) (h : Rendering data ords) :
    parseDoc (renderDoc ords) = some ords
  ∧ ords.length = data.length
  ∧ List.Forall₂ (fun obj row => List.Perm obj row) ords data := by
  refine ⟨parseDoc_renderDoc ords, h.length_eq.symm, ?_⟩
  exact List.Forall₂.flip h

/-- Witness for C8: a reordered rendering of a one-row table parses back
to exactly its rows. -/
theorem c8_witness :
    parseDoc (renderDoc [[("b", "y"), ("a", "x")]]) = some [[("b", "y"), ("a", "x")]] := by
  have h := c8_round_trip [buildRow ["a", "b"] ["x", "y"]] [[("b", "y"), ("a", "x")]]
    (List.Forall₂.cons (by decide) List.Forall₂.nil)
  exact h.1
